import Mathlib

/-!
Verification of the weighted linear least-squares core of `photometry_linalg`
(notebook `photometry_linalg.ipynb`).

The numeric core of the notebook is:

    def linreg(X, flux, err):
        inv_N = np.linalg.inv(np.diag(err)**2)
        betas = np.linalg.inv(X.T @ inv_N @ X) @ X.T @ inv_N @ flux
        cov = np.linalg.inv(X.T @ inv_N @ X)
        return betas, cov

    best_flux_model = X_obs @ betas
    recovered = flux_observed - (X_obs[:, :-1] @ betas[:-1])

We embed this in exact rational arithmetic.  `np.linalg.inv` raises
`numpy.linalg.LinAlgError` on a (exactly) singular matrix; `@` raises
`ValueError` on an inner-dimension mismatch.  Fallible operations are
modelled with `Except NpError`.

Two renderings of `linreg` are given:
* `linreg`, over shape-indexed matrices `Matrix (Fin n) (Fin k) ℚ`, used for
  the algebraic claims (the shapes are consistent by typing);
* `linregL`, over plain list-of-rows matrices, which keeps numpy's dynamic
  shape checks in the evaluation order of the source line, used for the
  dimension-mismatch claims.
-/

open Matrix

/-- The error conditions numpy can raise inside `linreg`:
`linAlgError` is `numpy.linalg.LinAlgError` (raised by `np.linalg.inv` on a
singular or non-square matrix), `valueError` is the `ValueError` raised by
`@` on an inner-dimension mismatch. -/
inductive NpError where
  | linAlgError : NpError
  | valueError : NpError
deriving DecidableEq, Repr

/-- Model of `np.linalg.inv` on an `m × m` rational matrix: raises
`LinAlgError` when the matrix is singular, otherwise returns the exact
inverse `det⁻¹ • adjugate`. -/
def npInv {m : ℕ} (A : Matrix (Fin m) (Fin m) ℚ) :
    Except NpError (Matrix (Fin m) (Fin m) ℚ) :=
  if A.det = 0 then .error .linAlgError else .ok (A.det⁻¹ • A.adjugate)

/-- Model of `linreg(X, flux, err)` from the notebook, over shape-indexed
matrices.  `np.diag(err)**2` is the elementwise square of the diagonal
matrix `np.diag(err)`; the two occurrences of
`np.linalg.inv(X.T @ inv_N @ X)` in the source (one in the `betas` line,
one in the `cov` line) are both kept. -/
def linreg {n k : ℕ} (X : Matrix (Fin n) (Fin k) ℚ) (flux err : Fin n → ℚ) :
    Except NpError ((Fin k → ℚ) × Matrix (Fin k) (Fin k) ℚ) :=
  match npInv ((Matrix.diagonal err).map (fun a => a ^ 2)) with
  | .error e => .error e
  | .ok inv_N =>
    match npInv (Xᵀ * inv_N * X) with
    | .error e => .error e
    | .ok m =>
      let betas := (m * Xᵀ * inv_N) *ᵥ flux
      match npInv (Xᵀ * inv_N * X) with
      | .error e => .error e
      | .ok cov => .ok (betas, cov)

/-- The diagonal weight matrix `W` with entries `1/σᵢ²`, as written in the
spec ("form the diagonal weight matrix `W` with entries `1/σ_i²`"). -/
def Wdiag {n : ℕ} (err : Fin n → ℚ) : Matrix (Fin n) (Fin n) ℚ :=
  Matrix.diagonal fun i => (err i ^ 2)⁻¹

/-- Model of `best_flux_model = X_obs @ betas`. -/
def best_flux_model {n k : ℕ} (X : Matrix (Fin n) (Fin k) ℚ)
    (betas : Fin k → ℚ) : Fin n → ℚ :=
  X *ᵥ betas

/-- Model of `flux_observed - (X_obs[:, :-1] @ betas[:-1])`: the design
matrix with its last column dropped, applied to the coefficient vector with
its last entry dropped, subtracted from the observations. -/
def recovered_signal {n k : ℕ} (X : Matrix (Fin n) (Fin (k + 1)) ℚ)
    (flux : Fin n → ℚ) (betas : Fin (k + 1) → ℚ) : Fin n → ℚ :=
  flux - (X.submatrix id Fin.castSucc) *ᵥ (fun j => betas (Fin.castSucc j))

/-! ### List-based model of `linreg` (numpy's dynamic shape behaviour)

`numpy` arrays carry their shapes at run time: `@` raises `ValueError` when
the inner dimensions disagree and `np.linalg.inv` raises `LinAlgError` on a
non-square or singular argument.  The model below keeps those checks, in the
left-to-right evaluation order of the two source lines of `linreg`. -/

/-- Number of columns of a list-of-rows matrix (`A.shape[1]`). -/
def ncolsL (A : List (List ℚ)) : ℕ := (A.headD []).length

/-- Column `j` of a list-of-rows matrix. -/
def colL (A : List (List ℚ)) (j : ℕ) : List ℚ := A.map fun r => r.getD j 0

/-- Dot product of two equal-length rows. -/
def dotL (v w : List ℚ) : ℚ := (List.zipWith (fun a b => a * b) v w).sum

/-- `A.T` for a rectangular list-of-rows matrix. -/
def transposeL (A : List (List ℚ)) : List (List ℚ) :=
  (List.range (ncolsL A)).map (colL A)

/-- `np.diag(v)`: the square matrix with `v` on the diagonal. -/
def diagL (v : List ℚ) : List (List ℚ) :=
  (List.range v.length).map fun i =>
    (List.range v.length).map fun j => if i = j then v.getD i 0 else 0

/-- Elementwise `** 2` of a matrix. -/
def sqL (A : List (List ℚ)) : List (List ℚ) :=
  A.map fun r => r.map fun a => a ^ 2

/-- `A @ B` for two matrices: `ValueError` when the inner dimensions
(`A.shape[1]` versus `B.shape[0]`) disagree. -/
def matmulL (A B : List (List ℚ)) : Except NpError (List (List ℚ)) :=
  if ncolsL A = B.length then
    .ok (A.map fun row => (List.range (ncolsL B)).map fun j => dotL row (colL B j))
  else .error .valueError

/-- `A @ v` for a matrix and a (1-D) vector: `ValueError` when `A.shape[1]`
differs from the vector's length. -/
def matvecL (A : List (List ℚ)) (v : List ℚ) : Except NpError (List ℚ) :=
  if ncolsL A = v.length then .ok (A.map fun row => dotL row v)
  else .error .valueError

/-- Determinant by Laplace expansion along the first row; the first argument
is structural fuel (the row count), so that the definition reduces inside
`decide`. -/
def detLAux : ℕ → List (List ℚ) → ℚ
  | _, [] => 1
  | 0, _ :: _ => 1
  | fuel + 1, row :: rest =>
    ((List.range row.length).map fun j =>
      (-1 : ℚ) ^ j * row.getD j 0 *
        detLAux fuel (rest.map fun r => r.eraseIdx j)).sum

def detL (A : List (List ℚ)) : ℚ := detLAux A.length A

/-- `np.linalg.inv` on a list matrix: `LinAlgError` on a non-square or
singular input, otherwise the adjugate inverse (entry `(i, j)` is the
cofactor `(-1)^(i+j) Mⱼᵢ / det A`). -/
def invL (A : List (List ℚ)) : Except NpError (List (List ℚ)) :=
  if ncolsL A = A.length then
    if detL A = 0 then .error .linAlgError
    else
      .ok ((List.range A.length).map fun i =>
        (List.range A.length).map fun j =>
          (-1 : ℚ) ^ (i + j) *
            detL ((A.eraseIdx j).map fun r => r.eraseIdx i) / detL A)
  else .error .linAlgError

/-- `linreg` over list matrices.  Every `@` and `np.linalg.inv` of the two
source lines appears in Python's left-to-right evaluation order, including
the second computation of `np.linalg.inv(X.T @ inv_N @ X)` in the `cov`
line. -/
def linregL (X : List (List ℚ)) (flux err : List ℚ) :
    Except NpError (List ℚ × List (List ℚ)) :=
  match invL (sqL (diagL err)) with
  | .error e => .error e
  | .ok inv_N =>
    match matmulL (transposeL X) inv_N with
    | .error e => .error e
    | .ok t2 =>
      match matmulL t2 X with
      | .error e => .error e
      | .ok t3 =>
        match invL t3 with
        | .error e => .error e
        | .ok t4 =>
          match matmulL t4 (transposeL X) with
          | .error e => .error e
          | .ok t5 =>
            match matmulL t5 inv_N with
            | .error e => .error e
            | .ok t6 =>
              match matvecL t6 flux with
              | .error e => .error e
              | .ok betas =>
                match matmulL (transposeL X) inv_N with
                | .error e => .error e
                | .ok c2 =>
                  match matmulL c2 X with
                  | .error e => .error e
                  | .ok c3 =>
                    match invL c3 with
                    | .error e => .error e
                    | .ok cov => .ok (betas, cov)

/-! ### Basic facts about `npInv` and `linreg` -/

theorem npInv_ok {m : ℕ} {A : Matrix (Fin m) (Fin m) ℚ} (h : A.det ≠ 0) :
    npInv A = .ok A⁻¹ := by
  rw [npInv, if_neg h, Matrix.inv_def, Ring.inverse_eq_inv]

theorem npInv_err {m : ℕ} {A : Matrix (Fin m) (Fin m) ℚ} (h : A.det = 0) :
    npInv A = .error .linAlgError := by
  rw [npInv, if_pos h]

/-- `np.diag(err)**2` is the diagonal matrix with entries `errᵢ²`. -/
theorem diag_err_sq {n : ℕ} (err : Fin n → ℚ) :
    (Matrix.diagonal err).map (fun a => a ^ 2) =
      Matrix.diagonal fun i => err i ^ 2 := by
  rw [Matrix.diagonal_map (by norm_num)]

/-- When no uncertainty entry is zero, `inv_N = np.linalg.inv(np.diag(err)**2)`
is exactly the weight matrix `W` with entries `1/σᵢ²`. -/
theorem npInv_diag_err {n : ℕ} {err : Fin n → ℚ} (h : ∀ i, err i ≠ 0) :
    npInv ((Matrix.diagonal err).map (fun a => a ^ 2)) = .ok (Wdiag err) := by
  rw [diag_err_sq]
  have hdet : (Matrix.diagonal fun i => err i ^ 2).det ≠ 0 := by
    rw [Matrix.det_diagonal]
    exact Finset.prod_ne_zero_iff.mpr fun i _ => pow_ne_zero 2 (h i)
  rw [npInv_ok hdet]
  congr 1
  refine Matrix.inv_eq_right_inv ?_
  rw [Wdiag, Matrix.diagonal_mul_diagonal]
  rw [show (fun i => err i ^ 2 * (err i ^ 2)⁻¹) = fun _ => (1 : ℚ) from
    funext fun i => mul_inv_cancel₀ (pow_ne_zero 2 (h i))]
  exact Matrix.diagonal_one

/-- Closed form of `linreg` on inputs where both inversions succeed. -/
theorem linreg_eq_of {n k : ℕ} (X : Matrix (Fin n) (Fin k) ℚ)
    (flux err : Fin n → ℚ) (hσ : ∀ i, err i ≠ 0)
    (hdet : (Xᵀ * Wdiag err * X).det ≠ 0) :
    linreg X flux err =
      .ok (((Xᵀ * Wdiag err * X)⁻¹ * Xᵀ * Wdiag err) *ᵥ flux,
        (Xᵀ * Wdiag err * X)⁻¹) := by
  rw [linreg, npInv_diag_err hσ]
  dsimp only
  rw [npInv_ok hdet]

/-- If some uncertainty entry is zero, `np.diag(err)**2` is singular and the
very first `np.linalg.inv` raises `LinAlgError`. -/
theorem linreg_err_of_zero {n k : ℕ} (X : Matrix (Fin n) (Fin k) ℚ)
    (flux err : Fin n → ℚ) (h : ∃ i, err i = 0) :
    linreg X flux err = .error .linAlgError := by
  obtain ⟨i, hi⟩ := h
  have hdet : ((Matrix.diagonal err).map (fun a => a ^ 2)).det = 0 := by
    rw [diag_err_sq, Matrix.det_diagonal]
    refine Finset.prod_eq_zero (Finset.mem_univ i) ?_
    rw [hi]
    norm_num
  rw [linreg, npInv_err hdet]

/-! ### The quadratic form of the normal matrix -/

theorem qform_eq {n k : ℕ} (X : Matrix (Fin n) (Fin k) ℚ) (err : Fin n → ℚ)
    (v : Fin k → ℚ) :
    v ⬝ᵥ ((Xᵀ * Wdiag err * X) *ᵥ v) =
      (X *ᵥ v) ⬝ᵥ (Wdiag err *ᵥ (X *ᵥ v)) := by
  rw [Matrix.mul_assoc, ← Matrix.mulVec_mulVec, ← Matrix.mulVec_mulVec,
    Matrix.dotProduct_mulVec, Matrix.vecMul_transpose]

theorem qform_diag_nonneg {n : ℕ} (err u : Fin n → ℚ) :
    0 ≤ u ⬝ᵥ (Wdiag err *ᵥ u) := by
  rw [dotProduct]
  refine Finset.sum_nonneg fun i _ => ?_
  rw [Wdiag, Matrix.mulVec_diagonal]
  have h : u i * ((err i ^ 2)⁻¹ * u i) = (err i ^ 2)⁻¹ * u i ^ 2 := by ring
  rw [h]
  positivity

theorem qform_diag_pos {n : ℕ} {err u : Fin n → ℚ} (herr : ∀ i, err i ≠ 0)
    (hu : u ≠ 0) : 0 < u ⬝ᵥ (Wdiag err *ᵥ u) := by
  obtain ⟨j, hj⟩ : ∃ j, u j ≠ 0 := by
    by_contra h
    push_neg at h
    exact hu (funext h)
  rw [dotProduct]
  refine Finset.sum_pos' (fun i _ => ?_) ⟨j, Finset.mem_univ j, ?_⟩
  · rw [Wdiag, Matrix.mulVec_diagonal]
    have h : u i * ((err i ^ 2)⁻¹ * u i) = (err i ^ 2)⁻¹ * u i ^ 2 := by ring
    rw [h]
    positivity
  · rw [Wdiag, Matrix.mulVec_diagonal]
    have h : u j * ((err j ^ 2)⁻¹ * u j) = (err j ^ 2)⁻¹ * u j ^ 2 := by ring
    rw [h]
    have h1 : 0 < (err j ^ 2)⁻¹ :=
      inv_pos.mpr ((sq_nonneg _).lt_of_ne (Ne.symm (pow_ne_zero 2 (herr j))))
    have h2 : 0 < u j ^ 2 :=
      (sq_nonneg _).lt_of_ne (Ne.symm (pow_ne_zero 2 hj))
    exact mul_pos h1 h2

/-- If the columns of `X` are linearly independent and no uncertainty entry is
zero, the normal matrix `XᵀWX` is nonsingular. -/
theorem normal_det_ne_zero {n k : ℕ} {X : Matrix (Fin n) (Fin k) ℚ}
    {err : Fin n → ℚ} (herr : ∀ i, err i ≠ 0)
    (hX : ∀ v : Fin k → ℚ, X *ᵥ v = 0 → v = 0) :
    (Xᵀ * Wdiag err * X).det ≠ 0 := by
  intro h0
  obtain ⟨v, hv, hMv⟩ := Matrix.exists_mulVec_eq_zero_iff.mpr h0
  have h1 : v ⬝ᵥ ((Xᵀ * Wdiag err * X) *ᵥ v) = 0 := by
    rw [hMv, dotProduct_zero]
  rw [qform_eq] at h1
  have h2 : X *ᵥ v ≠ 0 := fun hXv => hv (hX v hXv)
  exact absurd h1 (ne_of_gt (qform_diag_pos herr h2))

/-- Every diagonal entry of `(XᵀWX)⁻¹` is nonnegative when the normal matrix
is nonsingular. -/
theorem normal_inv_diag_nonneg {n k : ℕ} {X : Matrix (Fin n) (Fin k) ℚ}
    {err : Fin n → ℚ} (hdet : (Xᵀ * Wdiag err * X).det ≠ 0) (i : Fin k) :
    0 ≤ (Xᵀ * Wdiag err * X)⁻¹ i i := by
  set M := Xᵀ * Wdiag err * X with hM
  set u : Fin k → ℚ := fun j => M⁻¹ j i with hu
  have hMu : M *ᵥ u = fun j => (M * M⁻¹) j i := by
    funext j
    simp [Matrix.mulVec, Matrix.mul_apply, dotProduct, hu]
  rw [Matrix.mul_nonsing_inv M (isUnit_iff_ne_zero.mpr hdet)] at hMu
  have key : u ⬝ᵥ (M *ᵥ u) = M⁻¹ i i := by
    rw [hMu, dotProduct]
    simp [Matrix.one_apply, mul_ite, mul_one, mul_zero, hu]
  rw [← key, hM, qform_eq]
  exact qform_diag_nonneg err (X *ᵥ u)


/-! ### Claim theorems for the solver -/

/-- Claim C1: for a design matrix `X`, observations `flux` and strictly
positive uncertainties `err` with `XᵀWX` invertible, `linreg` returns the
normal-equation solution `β̂ = (XᵀWX)⁻¹ XᵀW flux` together with the
covariance `(XᵀWX)⁻¹`, where `W` is the diagonal matrix with entries
`1/errᵢ²`; the coefficient vector has one entry per column of `X` and the
covariance is `k × k` (enforced by the types). -/
theorem linreg_normal_equations {n k : ℕ} (X : Matrix (Fin n) (Fin k) ℚ)
    (flux err : Fin n → ℚ) (hσ : ∀ i, 0 < err i)
    (hdet : (Xᵀ * Wdiag err * X).det ≠ 0) :
    linreg X flux err =
      .ok (((Xᵀ * Wdiag err * X)⁻¹ * Xᵀ * Wdiag err) *ᵥ flux,
        (Xᵀ * Wdiag err * X)⁻¹) :=
  linreg_eq_of X flux err (fun i => ne_of_gt (hσ i)) hdet

/-- Claim C2: for `X` with linearly independent columns, any `beta_true` and
any strictly positive uncertainties, solving with the noise-free
observations `X *ᵥ beta_true` recovers exactly `beta_true` (exact
arithmetic), independently of the uncertainty vector. -/
theorem linreg_zero_noise_recovery {n k : ℕ} (X : Matrix (Fin n) (Fin k) ℚ)
    (err : Fin n → ℚ) (beta_true : Fin k → ℚ)
    (hX : ∀ v : Fin k → ℚ, X *ᵥ v = 0 → v = 0) (hσ : ∀ i, 0 < err i) :
    ∃ C, linreg X (X *ᵥ beta_true) err = .ok (beta_true, C) := by
  have herr : ∀ i, err i ≠ 0 := fun i => ne_of_gt (hσ i)
  have hdet := normal_det_ne_zero herr hX
  refine ⟨(Xᵀ * Wdiag err * X)⁻¹, ?_⟩
  rw [linreg_eq_of X (X *ᵥ beta_true) err herr hdet]
  simp only [Except.ok.injEq, Prod.mk.injEq]
  refine ⟨?_, trivial⟩
  rw [Matrix.mulVec_mulVec]
  have hAX : (Xᵀ * Wdiag err * X)⁻¹ * Xᵀ * Wdiag err * X =
      (Xᵀ * Wdiag err * X)⁻¹ * (Xᵀ * Wdiag err * X) := by
    simp only [Matrix.mul_assoc]
  rw [hAX, Matrix.nonsing_inv_mul _ (isUnit_iff_ne_zero.mpr hdet),
    Matrix.one_mulVec]

/-- Claim C3: when the columns of `X` are linearly dependent (identical
columns, a scalar multiple of another column, or `k > n`), the normal matrix
`XᵀWX` is singular, and `np.linalg.inv` raises the singular-matrix error
(numpy's `LinAlgError`, the condition the spec names
`SingularDesignMatrix`) instead of returning garbage. -/
theorem linreg_singular_raises {n k : ℕ} (X : Matrix (Fin n) (Fin k) ℚ)
    (flux err : Fin n → ℚ)
    (hdep : ∃ v : Fin k → ℚ, v ≠ 0 ∧ X *ᵥ v = 0) :
    linreg X flux err = .error .linAlgError := by
  by_cases hσ : ∀ i, err i ≠ 0
  · obtain ⟨v, hv, hXv⟩ := hdep
    have hdet : (Xᵀ * Wdiag err * X).det = 0 := by
      rw [← Matrix.exists_mulVec_eq_zero_iff]
      refine ⟨v, hv, ?_⟩
      rw [Matrix.mul_assoc, ← Matrix.mulVec_mulVec, ← Matrix.mulVec_mulVec,
        hXv, Matrix.mulVec_zero, Matrix.mulVec_zero]
    rw [linreg, npInv_diag_err hσ]
    dsimp only
    rw [npInv_err hdet]
  · push_neg at hσ
    exact linreg_err_of_zero X flux err hσ

/-- Claim C4 (amended): when some uncertainty entry is exactly zero, the
first inversion `np.linalg.inv(np.diag(err)**2)` hits a singular diagonal
matrix, so `linreg` fails with numpy's `LinAlgError` (there is no dedicated
`InvalidUncertainty` error in the code). -/
theorem linreg_zero_uncertainty_raises {n k : ℕ} (X : Matrix (Fin n) (Fin k) ℚ)
    (flux err : Fin n → ℚ) (h : ∃ i, err i = 0) :
    linreg X flux err = .error .linAlgError :=
  linreg_err_of_zero X flux err h

/-- Claim C5: scaling every uncertainty entry by the same positive constant
`c` leaves the returned coefficients unchanged and multiplies the returned
covariance by `c²`. -/
theorem linreg_uncertainty_scale_invariance {n k : ℕ}
    (X : Matrix (Fin n) (Fin k) ℚ) (flux err : Fin n → ℚ) (c : ℚ)
    (hσ : ∀ i, 0 < err i) (hc : 0 < c)
    (hdet : (Xᵀ * Wdiag err * X).det ≠ 0) :
    ∃ b C, linreg X flux err = .ok (b, C) ∧
      linreg X flux (fun i => c * err i) = .ok (b, c ^ 2 • C) := by
  have herr : ∀ i, err i ≠ 0 := fun i => ne_of_gt (hσ i)
  have hc0 : c ≠ 0 := ne_of_gt hc
  have hW : Wdiag (fun i => c * err i) = (c ^ 2)⁻¹ • Wdiag err := by
    have hfun : (fun i => ((c * err i) ^ 2)⁻¹) =
        (c ^ 2)⁻¹ • fun i : Fin n => (err i ^ 2)⁻¹ := by
      funext i
      simp only [Pi.smul_apply, smul_eq_mul, mul_pow, mul_inv]
    rw [Wdiag, Wdiag, hfun, Matrix.diagonal_smul]
  have hM : Xᵀ * Wdiag (fun i => c * err i) * X =
      (c ^ 2)⁻¹ • (Xᵀ * Wdiag err * X) := by
    rw [hW, Matrix.mul_smul, Matrix.smul_mul]
  have hdet2 : (Xᵀ * Wdiag (fun i => c * err i) * X).det ≠ 0 := by
    rw [hM, Matrix.det_smul]
    exact mul_ne_zero (pow_ne_zero _ (inv_ne_zero (pow_ne_zero 2 hc0))) hdet
  have herr2 : ∀ i, c * err i ≠ 0 := fun i => mul_ne_zero hc0 (herr i)
  have hinv : (Xᵀ * Wdiag (fun i => c * err i) * X)⁻¹ =
      c ^ 2 • (Xᵀ * Wdiag err * X)⁻¹ := by
    refine Matrix.inv_eq_right_inv ?_
    rw [hM, Matrix.smul_mul, Matrix.mul_smul, smul_smul,
      inv_mul_cancel₀ (pow_ne_zero 2 hc0), one_smul,
      Matrix.mul_nonsing_inv _ (isUnit_iff_ne_zero.mpr hdet)]
  refine ⟨((Xᵀ * Wdiag err * X)⁻¹ * Xᵀ * Wdiag err) *ᵥ flux,
    (Xᵀ * Wdiag err * X)⁻¹, linreg_eq_of X flux err herr hdet, ?_⟩
  rw [linreg_eq_of X flux (fun i => c * err i) herr2 hdet2, hinv, hW]
  simp only [Except.ok.injEq, Prod.mk.injEq]
  refine ⟨?_, trivial⟩
  rw [Matrix.smul_mul, Matrix.smul_mul, Matrix.mul_smul, smul_smul,
    mul_inv_cancel₀ (pow_ne_zero 2 hc0), one_smul]

/-- Claim C6: for a full-rank design matrix and strictly positive
uncertainties, `linreg` succeeds and every diagonal entry of the returned
covariance matrix is nonnegative. -/
theorem linreg_cov_diag_nonneg {n k : ℕ} (X : Matrix (Fin n) (Fin k) ℚ)
    (flux err : Fin n → ℚ)
    (hX : ∀ v : Fin k → ℚ, X *ᵥ v = 0 → v = 0) (hσ : ∀ i, 0 < err i) :
    ∃ b C, linreg X flux err = .ok (b, C) ∧ ∀ i, 0 ≤ C i i := by
  have herr : ∀ i, err i ≠ 0 := fun i => ne_of_gt (hσ i)
  have hdet := normal_det_ne_zero herr hX
  exact ⟨_, _, linreg_eq_of X flux err herr hdet,
    fun i => normal_inv_diag_nonneg hdet i⟩

/-- Claim C9 (extensional part): on every well-posed input the returned
coefficient vector equals the returned covariance matrix applied to
`XᵀW flux`; both outputs come from the same inverse of `XᵀWX`. -/
theorem linreg_betas_eq_cov_apply {n k : ℕ} (X : Matrix (Fin n) (Fin k) ℚ)
    (flux err : Fin n → ℚ) (hσ : ∀ i, 0 < err i)
    (hdet : (Xᵀ * Wdiag err * X).det ≠ 0) :
    ∃ b C, linreg X flux err = .ok (b, C) ∧
      b = C *ᵥ ((Xᵀ * Wdiag err) *ᵥ flux) := by
  refine ⟨_, _, linreg_eq_of X flux err (fun i => ne_of_gt (hσ i)) hdet, ?_⟩
  rw [Matrix.mulVec_mulVec, ← Matrix.mul_assoc]

/-- Claim C10: the solver's output is invariant under replacing the
uncertainty vector by its entrywise absolute value, because the
uncertainties only enter through `np.diag(err)**2`. -/
theorem linreg_abs_uncertainty_invariant {n k : ℕ}
    (X : Matrix (Fin n) (Fin k) ℚ) (flux err : Fin n → ℚ) :
    linreg X flux err = linreg X flux (fun i => |err i|) := by
  have h : (Matrix.diagonal err).map (fun a => a ^ 2) =
      (Matrix.diagonal fun i => |err i|).map (fun a => a ^ 2) := by
    have hfun : (fun i : Fin n => err i ^ 2) = fun i => |err i| ^ 2 := by
      funext i
      rw [sq_abs]
    rw [diag_err_sq, diag_err_sq, hfun]
  rw [linreg, linreg, h]

/-- Claim C7: the model vector is the matrix-vector product of the design
matrix with the fitted coefficients, and the recovered signal is the
observation vector minus the contribution of every column except the last
(signal-template) column. -/
theorem reconstruction_matches_spec {n k : ℕ} (X : Matrix (Fin n) (Fin k) ℚ)
    (Y : Matrix (Fin n) (Fin (k + 1)) ℚ) (betas : Fin k → ℚ)
    (betasY : Fin (k + 1) → ℚ) (flux : Fin n → ℚ) :
    (∀ i, best_flux_model X betas i = ∑ j, X i j * betas j) ∧
      (∀ i, recovered_signal Y flux betasY i =
        flux i - ∑ j ∈ Finset.univ.erase (Fin.last k), Y i j * betasY j) := by
  constructor
  · intro i
    rw [best_flux_model, Matrix.mulVec, dotProduct]
  · intro i
    rw [recovered_signal, Pi.sub_apply]
    congr 1
    rw [Matrix.mulVec, dotProduct,
      Finset.sum_erase_eq_sub (Finset.mem_univ (Fin.last k)),
      Fin.sum_univ_castSucc (f := fun j => Y i j * betasY j),
      add_sub_cancel_right]
    simp [Matrix.submatrix_apply]

/-- Claim C4 counterexample: with the design matrix `[[1], [1]]`,
observations `[1, 3]` and uncertainty vector `[-1, 1]` — whose first entry
is negative, hence `≤ 0` — `linreg` does not fail at all: it silently
returns the same coefficients and covariance as for uncertainties `[1, 1]`,
because `err` only enters through `np.diag(err)**2`. -/
theorem linreg_negative_uncertainty_accepted :
    linreg !![(1 : ℚ); 1] ![1, 3] ![-1, 1] = .ok (![2], !![1/2]) := by
  have herr : ∀ i, (![(-1 : ℚ), 1]) i ≠ 0 := by
    intro i
    fin_cases i <;> norm_num
  have hW : Wdiag ![(-1 : ℚ), 1] = 1 := by
    ext i j
    fin_cases i <;> fin_cases j <;>
      simp [Wdiag, Matrix.diagonal_apply, Matrix.one_apply]
  have hM : (!![(1 : ℚ); 1])ᵀ * Wdiag ![(-1 : ℚ), 1] * !![(1 : ℚ); 1] = !![2] := by
    rw [hW, Matrix.mul_one]
    ext i j
    fin_cases i
    fin_cases j
    simp [Matrix.mul_apply, Fin.sum_univ_two, Matrix.transpose_apply,
      Matrix.vecHead, Matrix.vecTail]
    norm_num
  have hdet : ((!![(1 : ℚ); 1])ᵀ * Wdiag ![(-1 : ℚ), 1] * !![(1 : ℚ); 1]).det ≠ 0 := by
    rw [hM, Matrix.det_fin_one_of]
    norm_num
  have hinv : (!![(2 : ℚ)])⁻¹ = !![1/2] := by
    rw [Matrix.inv_def, Matrix.adjugate_fin_one, Matrix.det_fin_one_of,
      Ring.inverse_eq_inv]
    ext i j
    fin_cases i
    fin_cases j
    simp [Matrix.one_apply]
  rw [linreg_eq_of _ _ _ herr hdet, hM, hinv, hW, Matrix.mul_one]
  simp only [Except.ok.injEq, Prod.mk.injEq]
  refine ⟨?_, trivial⟩
  funext i
  fin_cases i
  simp [Matrix.mulVec, Matrix.mul_apply, dotProduct, Fin.sum_univ_two,
    Fin.sum_univ_one, Matrix.transpose_apply, Matrix.vecHead, Matrix.vecTail]
  norm_num

/-! ### Shape lemmas for the list model, and the dimension-mismatch claim -/

theorem matmulL_ok_length {A B C : List (List ℚ)} (h : matmulL A B = .ok C) :
    C.length = A.length := by
  rw [matmulL] at h
  split_ifs at h
  simp only [Except.ok.injEq] at h
  subst h
  simp

theorem matmulL_ok_ncols {A B C : List (List ℚ)} (h : matmulL A B = .ok C)
    (hA : A ≠ []) : ncolsL C = ncolsL B := by
  rw [matmulL] at h
  split_ifs at h
  simp only [Except.ok.injEq] at h
  subst h
  obtain ⟨a, as, rfl⟩ := List.exists_cons_of_ne_nil hA
  simp [ncolsL]

theorem invL_ok_length {A B : List (List ℚ)} (h : invL A = .ok B) :
    B.length = A.length := by
  rw [invL] at h
  split_ifs at h
  simp only [Except.ok.injEq] at h
  subst h
  simp

theorem invL_ok_ncols {A B : List (List ℚ)} (h : invL A = .ok B)
    (hA : A.length ≠ 0) : ncolsL B = A.length := by
  rw [invL] at h
  split_ifs at h
  simp only [Except.ok.injEq] at h
  subst h
  obtain ⟨m, hm⟩ := Nat.exists_eq_succ_of_ne_zero hA
  rw [hm, List.range_succ_eq_map]
  simp [ncolsL, hm]

theorem transposeL_length (A : List (List ℚ)) :
    (transposeL A).length = ncolsL A := by
  simp [transposeL]

theorem sq_diag_length (v : List ℚ) : (sqL (diagL v)).length = v.length := by
  simp [sqL, diagL]

/-- Claim C8 (amended): when the observation vector's length differs from
the design matrix's row count, `linregL` never returns a result — some
matrix product or inversion raises — and the inputs are never truncated or
padded to fit.  (The check is numpy's lazy shape check, not an eager
dedicated `DimensionMismatch` error; see the counterexample.) -/
theorem linregL_length_mismatch_no_result (X : List (List ℚ)) (flux err : List ℚ)
    (hn : X ≠ []) (hk : ncolsL X ≠ 0) (herr : err.length = X.length)
    (hflux : flux.length ≠ X.length) :
    ∀ p, linregL X flux err ≠ .ok p := by
  intro p hp
  rw [linregL] at hp
  cases h1 : invL (sqL (diagL err)) with
  | error e => rw [h1] at hp; simp at hp
  | ok N =>
  rw [h1] at hp
  dsimp only at hp
  cases h2 : matmulL (transposeL X) N with
  | error e => rw [h2] at hp; simp at hp
  | ok t2 =>
  rw [h2] at hp
  dsimp only at hp
  cases h3 : matmulL t2 X with
  | error e => rw [h3] at hp; simp at hp
  | ok t3 =>
  rw [h3] at hp
  dsimp only at hp
  cases h4 : invL t3 with
  | error e => rw [h4] at hp; simp at hp
  | ok t4 =>
  rw [h4] at hp
  dsimp only at hp
  cases h5 : matmulL t4 (transposeL X) with
  | error e => rw [h5] at hp; simp at hp
  | ok t5 =>
  rw [h5] at hp
  dsimp only at hp
  cases h6 : matmulL t5 N with
  | error e => rw [h6] at hp; simp at hp
  | ok t6 =>
  rw [h6] at hp
  dsimp only at hp
  have hX0 : X.length ≠ 0 := fun h0 => hn (List.length_eq_zero.mp h0)
  have hNc : ncolsL N = X.length := by
    have hc := invL_ok_ncols h1 (by rw [sq_diag_length, herr]; exact hX0)
    rw [sq_diag_length, herr] at hc
    exact hc
  have ht2len : t2.length = ncolsL X := by
    rw [matmulL_ok_length h2, transposeL_length]
  have ht3len : t3.length = ncolsL X := by rw [matmulL_ok_length h3, ht2len]
  have ht4len : t4.length = ncolsL X := by rw [invL_ok_length h4, ht3len]
  have ht5len : t5.length = ncolsL X := by rw [matmulL_ok_length h5, ht4len]
  have ht5ne : t5 ≠ [] := by
    intro h0
    rw [h0] at ht5len
    exact hk (by simpa using ht5len.symm)
  have ht6c : ncolsL t6 = X.length := by rw [matmulL_ok_ncols h6 ht5ne, hNc]
  rw [matvecL, ht6c, if_neg (fun hh => hflux hh.symm)] at hp
  simp at hp

/-- Claim C8 counterexample: for the singular design matrix `[[1,1],[1,1]]`
with a length-1 observation vector against 2 rows, the failure numpy
surfaces is the singular-matrix `LinAlgError` from
`np.linalg.inv(X.T @ inv_N @ X)`, not a dimension error: the weight matrix
and the normal matrix are built and inverted (numeric work) before the
observation vector's length is ever consulted, so the mismatch is neither
detected eagerly nor reported as a dedicated `DimensionMismatch`. -/
theorem linregL_mismatch_not_detected_first :
    linregL [[1, 1], [1, 1]] [1] [1, 1] = .error .linAlgError := by
  norm_num [linregL, invL, detL, detLAux, sqL, diagL, matmulL, matvecL,
    transposeL, ncolsL, colL, dotL, List.range_succ]

/-! ### Concrete witnesses for the hypothesised theorems -/

theorem wdet1 : ((!![(1 : ℚ)])ᵀ * Wdiag ![1] * !![(1 : ℚ)]).det ≠ 0 := by
  simp [Wdiag, Matrix.det_fin_one, Matrix.mul_apply, Fin.sum_univ_one,
    Matrix.diagonal_apply, Matrix.transpose_apply]

theorem mulVec_one_col_inj : ∀ v : Fin 1 → ℚ, !![(1 : ℚ)] *ᵥ v = 0 → v = 0 := by
  intro v hv
  funext i
  fin_cases i
  have h0 := congrFun hv 0
  simpa [Matrix.mulVec, dotProduct, Fin.sum_univ_one] using h0

theorem pos_one : ∀ i, (0 : ℚ) < (![1] : Fin 1 → ℚ) i := by
  intro i
  fin_cases i
  norm_num

theorem dep_cols : ∃ v : Fin 2 → ℚ, v ≠ 0 ∧ !![(1 : ℚ), 1] *ᵥ v = 0 := by
  refine ⟨![1, -1], ?_, ?_⟩
  · intro hh
    exact absurd (congrFun hh 0) (by norm_num)
  · funext i
    fin_cases i
    simp [Matrix.mulVec, dotProduct, Fin.sum_univ_two]

/-- Witness for claim C1 at `X = [[1]]`, `flux = [5]`, `err = [1]`. -/
theorem linreg_normal_equations_witness :
    (∀ i, (0 : ℚ) < (![1] : Fin 1 → ℚ) i) ∧
      ((!![(1 : ℚ)])ᵀ * Wdiag ![1] * !![(1 : ℚ)]).det ≠ 0 ∧
      linreg !![(1 : ℚ)] ![5] ![1] =
        .ok ((((!![(1 : ℚ)])ᵀ * Wdiag ![1] * !![(1 : ℚ)])⁻¹ * (!![(1 : ℚ)])ᵀ *
            Wdiag ![1]) *ᵥ ![5],
          ((!![(1 : ℚ)])ᵀ * Wdiag ![1] * !![(1 : ℚ)])⁻¹) :=
  ⟨pos_one, wdet1, linreg_normal_equations !![(1 : ℚ)] ![5] ![1] pos_one wdet1⟩

/-- Witness for claim C2 at `X = [[1]]`, `beta_true = [3]`, `err = [1]`. -/
theorem linreg_zero_noise_recovery_witness :
    (∀ v : Fin 1 → ℚ, !![(1 : ℚ)] *ᵥ v = 0 → v = 0) ∧
      (∀ i, (0 : ℚ) < (![1] : Fin 1 → ℚ) i) ∧
      ∃ C, linreg !![(1 : ℚ)] (!![(1 : ℚ)] *ᵥ ![3]) ![1] = .ok (![3], C) :=
  ⟨mulVec_one_col_inj, pos_one,
    linreg_zero_noise_recovery !![(1 : ℚ)] ![1] ![3] mulVec_one_col_inj pos_one⟩

/-- Witness for claim C3 at the `1 × 2` design matrix `[[1, 1]]` with two
identical columns. -/
theorem linreg_singular_raises_witness :
    (∃ v : Fin 2 → ℚ, v ≠ 0 ∧ !![(1 : ℚ), 1] *ᵥ v = 0) ∧
      linreg !![(1 : ℚ), 1] ![2] ![1] = .error .linAlgError :=
  ⟨dep_cols, linreg_singular_raises !![(1 : ℚ), 1] ![2] ![1] dep_cols⟩

/-- Witness for the amended claim C4 at `err = [0, 1]`. -/
theorem linreg_zero_uncertainty_raises_witness :
    (∃ i, (![(0 : ℚ), 1]) i = 0) ∧
      linreg !![(1 : ℚ); 1] ![1, 3] ![0, 1] = .error .linAlgError :=
  ⟨⟨0, rfl⟩, linreg_zero_uncertainty_raises !![(1 : ℚ); 1] ![1, 3] ![0, 1] ⟨0, rfl⟩⟩

/-- Witness for claim C5 at `X = [[1]]`, `flux = [5]`, `err = [1]`, `c = 2`. -/
theorem linreg_uncertainty_scale_invariance_witness :
    (∀ i, (0 : ℚ) < (![1] : Fin 1 → ℚ) i) ∧ (0 : ℚ) < 2 ∧
      ((!![(1 : ℚ)])ᵀ * Wdiag ![1] * !![(1 : ℚ)]).det ≠ 0 ∧
      ∃ b C, linreg !![(1 : ℚ)] ![5] ![1] = .ok (b, C) ∧
        linreg !![(1 : ℚ)] ![5] (fun i => 2 * (![1] : Fin 1 → ℚ) i) =
          .ok (b, (2 : ℚ) ^ 2 • C) :=
  ⟨pos_one, by norm_num, wdet1,
    linreg_uncertainty_scale_invariance !![(1 : ℚ)] ![5] ![1] 2 pos_one
      (by norm_num) wdet1⟩

/-- Witness for claim C6 at `X = [[1]]`, `flux = [5]`, `err = [1]`. -/
theorem linreg_cov_diag_nonneg_witness :
    (∀ v : Fin 1 → ℚ, !![(1 : ℚ)] *ᵥ v = 0 → v = 0) ∧
      (∀ i, (0 : ℚ) < (![1] : Fin 1 → ℚ) i) ∧
      ∃ b C, linreg !![(1 : ℚ)] ![5] ![1] = .ok (b, C) ∧ ∀ i, 0 ≤ C i i :=
  ⟨mulVec_one_col_inj, pos_one,
    linreg_cov_diag_nonneg !![(1 : ℚ)] ![5] ![1] mulVec_one_col_inj pos_one⟩

/-- Witness for claim C9 at `X = [[1]]`, `flux = [5]`, `err = [1]`. -/
theorem linreg_betas_eq_cov_apply_witness :
    (∀ i, (0 : ℚ) < (![1] : Fin 1 → ℚ) i) ∧
      ((!![(1 : ℚ)])ᵀ * Wdiag ![1] * !![(1 : ℚ)]).det ≠ 0 ∧
      ∃ b C, linreg !![(1 : ℚ)] ![5] ![1] = .ok (b, C) ∧
        b = C *ᵥ (((!![(1 : ℚ)])ᵀ * Wdiag ![1]) *ᵥ ![5]) :=
  ⟨pos_one, wdet1,
    linreg_betas_eq_cov_apply !![(1 : ℚ)] ![5] ![1] pos_one wdet1⟩

/-- Witness for the amended claim C8 at a `2 × 1` design matrix with a
length-1 observation vector. -/
theorem linregL_length_mismatch_no_result_witness :
    ([[(1 : ℚ)], [1]] ≠ ([] : List (List ℚ))) ∧ ncolsL [[(1 : ℚ)], [1]] ≠ 0 ∧
      ([(1 : ℚ), 1].length = [[(1 : ℚ)], [1]].length) ∧
      ([(1 : ℚ)].length ≠ [[(1 : ℚ)], [1]].length) ∧
      ∀ p, linregL [[(1 : ℚ)], [1]] [1] [1, 1] ≠ .ok p :=
  ⟨by simp, by norm_num [ncolsL], rfl, by decide,
    linregL_length_mismatch_no_result [[(1 : ℚ)], [1]] [1] [1, 1] (by simp)
      (by norm_num [ncolsL]) rfl (by decide)⟩
